import Mathlib

/-!
Shallow embedding of the go-lifecycle library (github.com/gretro/go-lifecycle):
the GracefulShutdown coordinator (RegisterComponent, Shutdown, WaitForShutdown,
waitForComponents, ShutdownError.IsTimeoutErr, option normalization) and the
readiness subsystem (ReadyCheck with poll, push and pulse component checks).

Time values (time.Duration, instants) are modelled as integers (nanoseconds).
Go channels are modelled by their capacity and occupancy; the waitForComponents
collection loop is modelled as a deterministic fuel-bounded loop over the list
of registered components, where each component is described by the iteration
index at which its sender goroutine becomes ready to deliver its result.
-/

namespace GoLifecycle

/-- Errors of the library. The sentinel errors are the four declared in the
source; errMsg stands for an arbitrary error a shutdown function returns. -/
inductive GoErr where
  | shutdownTimeout
  | componentAlreadyRegistered
  | alreadyShutdown
  | alreadyWaitingForShutdown
  | errMsg (s : String)
  deriving DecidableEq, Repr

/-- Model of errors.Is for the sentinel errors of this library: none of the
errors produced here wraps another, so errors.Is is equality. -/
def errorsIs (e target : GoErr) : Bool := e == target

/-- A Go channel, reduced to what the claims need: an identity and its
capacity. The source creates every completion channel with make of chan error,
which has capacity 0 (unbuffered). -/
structure GoChan where
  id : Nat
  capacity : Nat
  deriving DecidableEq, Repr

/-- The channel allocated by RegisterComponent: shutdownChan := make(chan error)
is unbuffered, hence capacity 0. -/
def mkShutdownChan (id : Nat) : GoChan := { id := id, capacity := 0 }

/-- Go channel-send semantics: a send blocks unless a receiver is currently
waiting on the channel or the buffer has free space. For an unbuffered channel
a send can only complete by rendezvous with a waiting receiver. -/
def sendWouldBlock (c : GoChan) (buffered waitingReceivers : Nat) : Bool :=
  waitingReceivers == 0 && c.capacity ≤ buffered

/-- OS signals, as far as the options need them. -/
inductive GoSignal where
  | interrupt
  | sigterm
  | other (n : Nat)
  deriving DecidableEq, Repr

/-- DefaultTimeout = 5 * time.Second, in nanoseconds. -/
def DefaultTimeout : Int := 5000000000

/-- DefaultPollDuration = 100 * time.Millisecond, in nanoseconds. -/
def DefaultPollDuration : Int := 100000000

/-- DefaultSignals = os.Interrupt, syscall.SIGTERM. -/
def DefaultSignals : List GoSignal := [.interrupt, .sigterm]

/-- GracefulShutdownOptions: Timeout, PollDuration (time.Duration, as
nanoseconds) and the Signals list. -/
structure GracefulShutdownOptions where
  Timeout : Int
  PollDuration : Int
  Signals : List GoSignal
  deriving DecidableEq, Repr

/-- The option normalization performed at the start of
NewGracefulShutdownWithOptions: a zero Timeout becomes DefaultTimeout, a zero
PollDuration becomes DefaultPollDuration, an empty Signals list becomes
DefaultSignals. -/
def normalizeOptions (o : GracefulShutdownOptions) : GracefulShutdownOptions :=
  let o1 := if o.Timeout = 0 then { o with Timeout := DefaultTimeout } else o
  let o2 := if o1.PollDuration = 0 then { o1 with PollDuration := DefaultPollDuration } else o1
  if o2.Signals.length = 0 then { o2 with Signals := DefaultSignals } else o2

/-- The component registry of a GracefulShutdown: map from component name to
its completion channel, modelled as an association list with pairwise-distinct
keys (a Go map cannot hold a key twice). -/
abbrev ComponentRegistry := List (String × GoChan)

/-- RegisterComponent: allocate an unbuffered channel; if the name is already
a key of the components map return ErrComponentAlreadyRegistered and leave the
map unchanged, otherwise bind the name to the new channel. The freshId
parameter stands for the identity of the newly allocated channel. Returns the
result of the call together with the registry after the call. -/
def RegisterComponent (comps : ComponentRegistry) (name : String) (freshId : Nat) :
    Except GoErr GoChan × ComponentRegistry :=
  let shutdownChan := mkShutdownChan freshId
  if comps.any (fun p => p.1 == name) then
    (.error .componentAlreadyRegistered, comps)
  else
    (.ok shutdownChan, comps ++ [(name, shutdownChan)])

/-- Behaviour of one registered component during a Shutdown run, as the
collection loop can observe it through non-blocking receives on the unbuffered
completion channel: none means the sender never becomes ready to deliver
(hung shutdown function); some (k, e) means the sender is blocked on its send
(or the channel is closed) from loop iteration k onward, delivering e, where
e = none is a nil error (success) and e = some ge a reported error ge. -/
abbrev CompBehavior := Option (Nat × Option GoErr)

/-- One pass of the inner for-loop of waitForComponents at iteration t: for
each remaining component attempt a non-blocking receive; a delivered non-nil
error is recorded in componentErrors, a delivered nil error just drops the
component, an unready component is kept in futureRemComponents. Returns the
errors recorded during the pass and the components still remaining. -/
def pollOnce (t : Nat) :
    List (String × CompBehavior) → List (String × GoErr) × List (String × CompBehavior)
  | [] => ([], [])
  | (n, b) :: rest =>
    let (es, rs) := pollOnce t rest
    match b with
    | some (k, some ge) => if k ≤ t then ((n, ge) :: es, rs) else (es, (n, b) :: rs)
    | some (k, none) => if k ≤ t then (es, rs) else (es, (n, b) :: rs)
    | none => (es, (n, b) :: rs)

/-- The outer loop of waitForComponents. The parameter t is the current
iteration index and fuel the number of iterations left before the top-of-loop
select observes that the overall deadline context is done (t + fuel stays
constant, equal to the deadline iteration). With fuel 0 the timeout branch
fires: every remaining component is recorded with ErrShutdownTimeout and the
aggregate is returned. Otherwise the loop polls every remaining component,
returns when none remains (nil error iff no error was ever recorded), else
sleeps one poll interval and repeats. The result none models a nil error from
the Go function; some m models returning ShutdownError with ComponentErrors m. -/
def wfcAux : Nat → Nat → List (String × CompBehavior) → List (String × GoErr) →
    Option (List (String × GoErr))
  | _, 0, remaining, errs =>
    some (errs ++ remaining.map (fun c => (c.1, GoErr.shutdownTimeout)))
  | t, fuel + 1, remaining, errs =>
    let (newErrs, rem) := pollOnce t remaining
    let errs2 := errs ++ newErrs
    if rem.isEmpty then
      if errs2.isEmpty then none else some errs2
    else
      wfcAux (t + 1) fuel rem errs2

/-- One run of the body of waitForComponents on a non-disposed coordinator:
deadline is the iteration index at whose top-of-loop check the timeout context
is first observed done, and comps the registered components (name and
observable behaviour). -/
def waitForComponents (deadline : Nat) (comps : List (String × CompBehavior)) :
    Option (List (String × GoErr)) :=
  wfcAux 0 deadline comps []

/-- Result of a full Shutdown call. -/
inductive ShutdownResult where
  | ok
  | alreadyShutdown
  | aggregate (componentErrors : List (String × GoErr))
  deriving DecidableEq, Repr

/-- The waitForComponents function including its disposed guard: under the
component mutex it defers setting disposed to true, returns ErrAlreadyShutdown
at once if disposed is already set, and otherwise runs the collection loop.
Returns the call result together with the disposed flag after the call. The
Shutdown entry point adds only the idempotent context cancellation before
delegating here. -/
def waitForComponentsGuarded (disposed : Bool) (deadline : Nat)
    (comps : List (String × CompBehavior)) : ShutdownResult × Bool :=
  if disposed then (.alreadyShutdown, true)
  else
    match waitForComponents deadline comps with
    | none => (.ok, true)
    | some m => (.aggregate m, true)

/-- IsTimeoutErr iterates the ComponentErrors map and returns false as soon as
one recorded error is not ErrShutdownTimeout (by errors.Is), true otherwise. -/
def IsTimeoutErr : List (String × GoErr) → Bool
  | [] => true
  | (_, e) :: rest => if errorsIs e .shutdownTimeout then IsTimeoutErr rest else false

/-- The state of a PulseComponentCheck: the expiration duration and the
lastPulse atomic pointer, nil until the first recorded pulse (times and
durations in nanoseconds). -/
structure PulseComponentCheck where
  expiration : Int
  lastPulse : Option Int
  deriving DecidableEq, Repr

/-- PulseComponentCheck.Ready evaluated at instant now: false when lastPulse
is nil, else true iff time.Since the stored instant is at most expiration. -/
def pulseReady (check : PulseComponentCheck) (now : Int) : Bool :=
  match check.lastPulse with
  | none => false
  | some lastPulse => now - lastPulse ≤ check.expiration

/-- PulseComponentCheck.RecordPulse evaluated at instant now: stores now as
the last pulse, overwriting any previous value. -/
def recordPulse (check : PulseComponentCheck) (now : Int) : PulseComponentCheck :=
  { check with lastPulse := some now }

/-- A registered readiness check as the registry aggregation observes it at
one instant: its name and the readiness value its Ready method currently
returns. -/
structure CheckVal where
  name : String
  ready : Bool
  deriving DecidableEq, Repr

/-- ReadyCheck.Ready over the snapshot of registered checks taken under the
read lock: walks them in registration order and returns false at the first
check whose Ready is false, true when the walk ends. -/
def readyCheckReady : List CheckVal → Bool
  | [] => true
  | c :: rest => if c.ready then readyCheckReady rest else false

/-- Number of component Ready calls ReadyCheck.Ready performs on the given
snapshot: it evaluates checks in registration order, stopping right after the
first not-ready one. -/
def readyCheckReadyCalls : List CheckVal → Nat
  | [] => 0
  | c :: rest => if c.ready then readyCheckReadyCalls rest + 1 else 1

/-- Assignment to a Go map modelled on an association list: overwrite the
value of an existing key in place, append a new key. -/
def mapAssign (m : List (String × Bool)) (k : String) (v : Bool) : List (String × Bool) :=
  if m.any (fun p => p.1 == k) then
    m.map (fun p => if p.1 == k then (k, v) else p)
  else
    m ++ [(k, v)]

/-- ReadyCheck.Explain over the snapshot: builds a map by assigning each
registered check, in registration order, its current readiness; a repeated
name overwrites the earlier entry. -/
def readyCheckExplain (cs : List CheckVal) : List (String × Bool) :=
  cs.foldl (fun m c => mapAssign m c.name c.ready) []

/-- A sync.Mutex: locked or not. -/
abbrev MutexState := Bool

/-- Mutex.TryLock: returns whether the lock was acquired, together with the
mutex state afterwards. -/
def tryLock (m : MutexState) : Bool × MutexState :=
  if m then (false, m) else (true, true)

/-- Mutex.Unlock: unlocking an unlocked mutex is a fatal run-time error in Go
(modelled as Except.error), otherwise the mutex becomes unlocked. Go mutexes
are not owner-tracked: any goroutine may unlock a mutex another goroutine
locked. -/
def unlockMutex (m : MutexState) : Except Unit MutexState :=
  if m then .ok false else .error ()

/-- The wait-lock protocol of WaitForShutdown, with its exact statement order:
success := waitMutex.TryLock(); then defer waitMutex.Unlock() is registered
unconditionally; on TryLock failure the function returns
ErrAlreadyWaitingForShutdown, and the deferred Unlock still runs on that path.
The remainder of the call (signal wait, Shutdown) is abstracted by the
proceed marker: the model returns whether the body after the guard runs, the
error returned on the early path, and the mutex state after the deferred
Unlock of this invocation has run. -/
def waitForShutdownGuard (m : MutexState) : Bool × Option GoErr × Except Unit MutexState :=
  let (success, m1) := tryLock m
  if success then
    (true, none, unlockMutex m1)
  else
    (false, some .alreadyWaitingForShutdown, unlockMutex m1)

/-- PollComponentCheck.Stop: a single atomic store of false into isActive;
it returns immediately (a total function of the flag) and is idempotent. -/
def pollStop (_isActive : Bool) : Bool := false

/-- Timing trace of one run of PollComponentCheck.Start concurrent with one
Stop call: loadAt i is the instant of iteration i's isActive.Load at the top
of the for loop, probeAt i the instant of that iteration's checkFn invocation,
and stopAt the instant at which Stop stores false into isActive. Start stores
true at instant 0. -/
structure PollTrace where
  loadAt : Nat → Nat
  probeAt : Nat → Nat
  stopAt : Nat

/-- A trace is well formed when its instants follow the program order of the
loop body: the first load happens right after Start's store, each iteration
loads the flag before invoking the probe, and the probe (followed by the
interval sleep) precedes the next load. -/
def PollTrace.wf (tr : PollTrace) : Prop :=
  tr.loadAt 0 = 0 ∧ (∀ i, tr.loadAt i < tr.probeAt i) ∧ (∀ i, tr.probeAt i < tr.loadAt (i + 1))

/-- Value an isActive.Load at instant u observes: true from Start's store at
instant 0 until Stop's store at instant stopAt, false from then on. -/
def PollTrace.activeRead (tr : PollTrace) (u : Nat) : Bool :=
  decide (u < tr.stopAt)

/-- Iteration i of the loop runs (reaches its probe) exactly when every flag
load up to and including its own observed true. -/
def PollTrace.iterationRuns (tr : PollTrace) (i : Nat) : Prop :=
  ∀ j, j ≤ i → tr.activeRead (tr.loadAt j) = true

/-- A completion channel becomes readable at loop iteration t exactly when its
sender is blocked on the send (or the channel is closed) by then. -/
def recvReadyAt (t : Nat) (b : CompBehavior) : Bool :=
  match b with
  | none => false
  | some (k, _) => k ≤ t

/-- The component behaviour b delivers a nil error at an iteration strictly
before the deadline iteration d. -/
def succeedsBefore (d : Nat) (b : CompBehavior) : Prop :=
  ∃ k, b = some (k, none) ∧ k < d

instance (d : Nat) (b : CompBehavior) : Decidable (succeedsBefore d b) := by
  rcases b with _ | ⟨k, _ | e⟩
  · exact .isFalse (by simp [succeedsBefore])
  · exact decidable_of_iff (k < d) (by simp [succeedsBefore])
  · exact .isFalse (by simp [succeedsBefore])

/-- The cause a run with deadline iteration d records for a component with
behaviour b: its own error when it delivers one before the deadline, nothing
when it delivers a nil error before the deadline, and ErrShutdownTimeout when
it is still outstanding at the deadline. -/
def finalErr (d : Nat) (b : CompBehavior) : Option GoErr :=
  match b with
  | none => some .shutdownTimeout
  | some (k, e) => if k < d then e else some .shutdownTimeout

/-- Invariant of the collection loop at iteration t: every component still
remaining becomes readable no earlier than t (it was not readable at any
earlier iteration, or it would have been received and removed). -/
def remInv (t : Nat) (l : List (String × CompBehavior)) : Prop :=
  ∀ p ∈ l, ∀ k e, p.2 = some (k, e) → t ≤ k

/-- The readiness value of the last check in the list bearing the name k, the
value the spec says a repeated key retains in Explain. -/
def lastWritten (cs : List CheckVal) (k : String) : Option Bool :=
  match cs with
  | [] => none
  | c :: rest =>
    match lastWritten rest k with
    | some v => some v
    | none => if c.name == k then some c.ready else none

/-! Theorems. -/

/-- C7: a pulse check with no recorded heartbeat is never ready, and after
RecordPulse stored the instant t, Ready evaluated at instant now is true
exactly when the elapsed time now - t is at most the configured expiration:
ready at the exact expiration boundary, not ready at any strictly later
instant, as a pure function of the stored state and the clock. -/
theorem pulseCheck_ready_characterization (exp now t : Int) (old : Option Int) :
    pulseReady ⟨exp, none⟩ now = false ∧
      (pulseReady (recordPulse ⟨exp, old⟩ t) now = true ↔ now - t ≤ exp) := by
  refine ⟨rfl, ?_⟩
  simp [pulseReady, recordPulse]

/-- C8: IsTimeoutErr returns true exactly when every recorded component error
in the aggregate is ErrShutdownTimeout; it returns false as soon as any
recorded cause is a different error. -/
theorem isTimeoutErr_iff_all_timeout (m : List (String × GoErr)) :
    IsTimeoutErr m = true ↔ ∀ p ∈ m, p.2 = GoErr.shutdownTimeout := by
  induction m with
  | nil => simp [IsTimeoutErr]
  | cons hd tl ih =>
    obtain ⟨n, e⟩ := hd
    by_cases he : e = GoErr.shutdownTimeout
    · subst he
      simp [IsTimeoutErr, errorsIs, ih]
    · simp [IsTimeoutErr, errorsIs, he]

/-- C10: NewGracefulShutdownWithOptions replaces a zero Timeout by the
5-second default, a zero PollDuration by the 100-millisecond default and an
empty Signals list by the interrupt/termination default; an explicitly
zero-valued option therefore produces the same coordinator options as leaving
the field unset, and the normalized Timeout is never zero. -/
theorem normalizeOptions_defaults (o : GracefulShutdownOptions) :
    ((normalizeOptions o).Timeout = if o.Timeout = 0 then DefaultTimeout else o.Timeout) ∧
    ((normalizeOptions o).PollDuration =
      if o.PollDuration = 0 then DefaultPollDuration else o.PollDuration) ∧
    ((normalizeOptions o).Signals = if o.Signals = [] then DefaultSignals else o.Signals) ∧
    (normalizeOptions { o with Timeout := 0 } =
      normalizeOptions { o with Timeout := DefaultTimeout }) ∧
    (normalizeOptions { o with PollDuration := 0 } =
      normalizeOptions { o with PollDuration := DefaultPollDuration }) ∧
    (normalizeOptions { o with Signals := [] } =
      normalizeOptions { o with Signals := DefaultSignals }) ∧
    (normalizeOptions o).Timeout ≠ 0 := by
  obtain ⟨T, P, S⟩ := o
  simp only [normalizeOptions, DefaultTimeout, DefaultPollDuration, DefaultSignals,
    List.length_eq_zero]
  split_ifs <;> simp_all

/-- C2 counterexample: the completion signal RegisterComponent hands out is an
unbuffered channel (capacity 0), and a send on it while no receiver is waiting
(in particular after the collection loop timed out and stopped reading) blocks
the sender, contradicting the claim that such a send never blocks. -/
theorem shutdownChan_send_blocks :
    (RegisterComponent [] "worker" 0).1 = .ok (mkShutdownChan 0) ∧
    (mkShutdownChan 0).capacity = 0 ∧
    sendWouldBlock (mkShutdownChan 0) 0 0 = true :=
  ⟨rfl, rfl, rfl⟩

/-- C2 amended: a send on a registered completion channel blocks exactly when
no receiver is currently waiting on it; the collection loop's receives are
non-blocking, but a sender completes only by rendezvous, so once the loop has
stopped reading the sender blocks indefinitely. -/
theorem shutdownChan_send_blocks_iff_no_receiver (id buffered waiting : Nat) :
    sendWouldBlock (mkShutdownChan id) buffered waiting = true ↔ waiting = 0 := by
  simp [sendWouldBlock, mkShutdownChan]

/-- C3: with the wait lock held by a first WaitForShutdown invocation, a
second invocation fails TryLock and returns ErrAlreadyWaitingForShutdown
without running the body, but its unconditionally deferred Unlock releases the
first invocation's hold on the lock (final mutex state unlocked), so mutual
exclusion is not preserved; the first invocation's own deferred Unlock then
faults on the now-unlocked mutex. -/
theorem waitForShutdown_second_call_releases_lock :
    waitForShutdownGuard true = (false, some .alreadyWaitingForShutdown, Except.ok false) ∧
    unlockMutex false = .error () :=
  ⟨rfl, rfl⟩

/-- C5: a first Shutdown run on a fresh coordinator always leaves the
disposed flag set, and any later run finds the flag set and returns
ErrAlreadyShutdown at once, for every deadline and every component list alike:
the collection loop is not re-run and no component outcome is recomputed. -/
theorem shutdown_second_call_already_shutdown (d d2 : Nat)
    (comps comps2 : List (String × CompBehavior)) :
    (waitForComponentsGuarded false d comps).2 = true ∧
    waitForComponentsGuarded true d2 comps2 = (.alreadyShutdown, true) := by
  constructor
  · cases h : waitForComponents d comps <;> simp [waitForComponentsGuarded, h]
  · rfl

/-- C1 counterexample: with no components registered and the deadline already
elapsed at the collection loop's first check, waitForComponents returns a
ShutdownError carrying an empty ComponentErrors map, which is an error,
although every registered component (vacuously) reported completion without
error before the deadline. -/
theorem waitForComponents_empty_immediate_deadline :
    waitForComponents 0 [] = some [] ∧
      ∀ p ∈ ([] : List (String × CompBehavior)), succeedsBefore 0 p.2 :=
  ⟨rfl, by simp⟩

/-- Looking up a name in an association list it was just appended to, when
the name was not previously a key, finds the appended value. -/
theorem lookup_append_fresh {β : Type} (comps : List (String × β)) (name : String) (c : β)
    (h : comps.any (fun p => p.1 == name) = false) :
    (comps ++ [(name, c)]).lookup name = some c := by
  induction comps with
  | nil => simp [List.lookup]
  | cons hd tl ih =>
    simp only [List.any_cons, Bool.or_eq_false_iff] at h
    have hne : (name == hd.1) = false := by
      rcases h with ⟨h1, _⟩
      simp only [beq_eq_false_iff_ne] at h1 ⊢
      exact fun hk => h1 hk.symm
    simpa [List.lookup, hne] using ih h.2

/-- C4: registering a fresh name succeeds and binds it to the new unbuffered
channel; a second registration under the same name returns
ErrComponentAlreadyRegistered and leaves the registry exactly as it was, the
first registration's channel still bound to the name. -/
theorem registerComponent_duplicate_rejected (comps : ComponentRegistry) (name : String)
    (id1 id2 : Nat) (h : comps.any (fun p => p.1 == name) = false) :
    (RegisterComponent comps name id1).1 = .ok (mkShutdownChan id1) ∧
    RegisterComponent (RegisterComponent comps name id1).2 name id2 =
      (.error .componentAlreadyRegistered, (RegisterComponent comps name id1).2) ∧
    ((RegisterComponent comps name id1).2).lookup name = some (mkShutdownChan id1) := by
  have h1 : (RegisterComponent comps name id1).2 = comps ++ [(name, mkShutdownChan id1)] := by
    simp [RegisterComponent, h]
  have hmem : (comps ++ [(name, mkShutdownChan id1)]).any (fun p => p.1 == name) = true := by
    simp
  refine ⟨by simp [RegisterComponent, h], ?_, ?_⟩
  · rw [h1]
    simp [RegisterComponent, hmem]
  · rw [h1]
    exact lookup_append_fresh comps name _ h

/-- C4 witness: concrete instance on the empty registry with name db. -/
theorem registerComponent_duplicate_rejected_witness :
    (([] : ComponentRegistry).any (fun p => p.1 == "db") = false) ∧
    ((RegisterComponent [] "db" 0).1 = .ok (mkShutdownChan 0) ∧
      RegisterComponent (RegisterComponent [] "db" 0).2 "db" 1 =
        (.error .componentAlreadyRegistered, (RegisterComponent [] "db" 0).2) ∧
      ((RegisterComponent [] "db" 0).2).lookup "db" = some (mkShutdownChan 0)) :=
  ⟨rfl, registerComponent_duplicate_rejected [] "db" 0 1 rfl⟩

/-- Appending a binding for a different key does not change a lookup. -/
theorem lookup_append_other {β : Type} (m : List (String × β)) (k k2 : String) (v : β)
    (h : (k2 == k) = false) :
    (m ++ [(k, v)]).lookup k2 = m.lookup k2 := by
  induction m with
  | nil => simp [List.lookup, h]
  | cons hd tl ih =>
    by_cases hk : (k2 == hd.1) = true
    · simp [List.lookup, hk]
    · simp only [Bool.not_eq_true] at hk
      simp [List.lookup, hk, ih]

/-- Replacing every binding of key k does not change a lookup of a different
key. -/
theorem lookup_replace_other (m : List (String × Bool)) (k k2 : String) (v : Bool)
    (h : (k2 == k) = false) :
    (m.map (fun p => if p.1 == k then (k, v) else p)).lookup k2 = m.lookup k2 := by
  induction m with
  | nil => rfl
  | cons hd tl ih =>
    obtain ⟨a, b⟩ := hd
    simp only [List.map_cons]
    by_cases hk : ((a, b).1 == k) = true
    · have ha : a = k := by simpa using hk
      rw [if_pos hk]
      have hbeq2 : (k2 == a) = false := by rw [ha]; exact h
      simp only [List.lookup_cons, h, hbeq2]
      exact ih
    · rw [if_neg hk]
      simp only [List.lookup_cons]
      cases hbeq : k2 == a
      · simp only [ih]
      · rfl

/-- Replacing every binding of a key that is present makes a lookup of that
key find the new value. -/
theorem lookup_replace_self (m : List (String × Bool)) (k : String) (v : Bool)
    (h : m.any (fun p => p.1 == k) = true) :
    (m.map (fun p => if p.1 == k then (k, v) else p)).lookup k = some v := by
  induction m with
  | nil => simp at h
  | cons hd tl ih =>
    obtain ⟨a, b⟩ := hd
    simp only [List.map_cons]
    by_cases hk : ((a, b).1 == k) = true
    · rw [if_pos hk]
      simp [List.lookup_cons]
    · rw [if_neg hk]
      simp only [Bool.not_eq_true] at hk
      simp only [List.any_cons, hk, Bool.false_or] at h
      have hk2 : (k == a) = false := by
        simp only [beq_eq_false_iff_ne] at hk ⊢
        exact fun he => hk he.symm
      simp only [List.lookup_cons, hk2]
      exact ih h

/-- Looking up the key just assigned into a Go map finds the assigned value. -/
theorem mapAssign_lookup_self (m : List (String × Bool)) (k : String) (v : Bool) :
    (mapAssign m k v).lookup k = some v := by
  unfold mapAssign
  split_ifs with h
  · exact lookup_replace_self m k v h
  · refine lookup_append_fresh m k v ?_
    simp only [Bool.not_eq_true] at h
    exact h

/-- Assigning one key into a Go map does not change the lookup of another. -/
theorem mapAssign_lookup_other (m : List (String × Bool)) (k k2 : String) (v : Bool)
    (h : (k2 == k) = false) :
    (mapAssign m k v).lookup k2 = m.lookup k2 := by
  unfold mapAssign
  split_ifs with hmem
  · exact lookup_replace_other m k k2 v h
  · exact lookup_append_other m k k2 v h

/-- Replacing every binding of key k preserves the key list: a replaced entry
had a key equal to k and keeps it. -/
theorem replace_keys (m : List (String × Bool)) (k : String) (v : Bool) :
    (m.map (fun p => if p.1 == k then (k, v) else p)).map Prod.fst = m.map Prod.fst := by
  induction m with
  | nil => rfl
  | cons hd tl ih =>
    obtain ⟨a, b⟩ := hd
    simp only [List.map_cons]
    by_cases hk : ((a, b).1 == k) = true
    · have ha : a = k := by simpa using hk
      rw [if_pos hk]
      simp only [List.map_cons, ih, ha]
    · rw [if_neg hk]
      simp only [List.map_cons, ih]

/-- The keys of a Go map after an assignment: unchanged when the key was
present, the key appended when it was not. -/
theorem mapAssign_keys (m : List (String × Bool)) (k : String) (v : Bool) :
    (mapAssign m k v).map Prod.fst =
      if m.any (fun p => p.1 == k) then m.map Prod.fst else m.map Prod.fst ++ [k] := by
  unfold mapAssign
  split_ifs with h
  · exact replace_keys m k v
  · simp

/-- A key occurs in a Go map exactly when some entry's key equals it. -/
theorem any_key_iff (m : List (String × Bool)) (k : String) :
    m.any (fun p => p.1 == k) = true ↔ k ∈ m.map Prod.fst := by
  simp [List.any_eq_true]

/-- Membership in the key set of the Explain fold: a key is present exactly
when it was in the accumulator or is the name of some folded check. -/
theorem explain_fold_keys_mem (cs : List CheckVal) (m : List (String × Bool)) (n : String) :
    n ∈ (cs.foldl (fun acc c => mapAssign acc c.name c.ready) m).map Prod.fst ↔
      n ∈ m.map Prod.fst ∨ n ∈ cs.map CheckVal.name := by
  induction cs generalizing m with
  | nil => simp
  | cons c rest ih =>
    simp only [List.foldl_cons, ih, mapAssign_keys, List.map_cons, List.mem_cons]
    split_ifs with h
    · rw [any_key_iff] at h
      constructor
      · rintro (hm | hr)
        · exact Or.inl hm
        · exact Or.inr (Or.inr hr)
      · rintro (hm | he | hr)
        · exact Or.inl hm
        · exact Or.inl (he ▸ h)
        · exact Or.inr hr
    · simp only [List.mem_append, List.mem_singleton]
      tauto

/-- The Explain fold preserves distinctness of the keys. -/
theorem explain_fold_keys_nodup (cs : List CheckVal) (m : List (String × Bool))
    (h : (m.map Prod.fst).Nodup) :
    ((cs.foldl (fun acc c => mapAssign acc c.name c.ready) m).map Prod.fst).Nodup := by
  induction cs generalizing m with
  | nil => exact h
  | cons c rest ih =>
    simp only [List.foldl_cons]
    apply ih
    rw [mapAssign_keys]
    split_ifs with hmem
    · exact h
    · have hnotin : c.name ∉ m.map Prod.fst := by
        rw [← any_key_iff]
        simp only [Bool.not_eq_true] at hmem ⊢
        exact hmem
      simp [List.nodup_append, h, hnotin]

/-- A lookup in the Explain fold finds the last value written for the key,
falling back to the accumulator when no folded check bears the name. -/
theorem explain_fold_lookup (cs : List CheckVal) (m : List (String × Bool)) (k : String) :
    (cs.foldl (fun acc c => mapAssign acc c.name c.ready) m).lookup k =
      match lastWritten cs k with
      | some v => some v
      | none => m.lookup k := by
  induction cs generalizing m with
  | nil => simp [lastWritten]
  | cons c rest ih =>
    simp only [List.foldl_cons, ih]
    cases hlw : lastWritten rest k with
    | some v => simp [lastWritten, hlw]
    | none =>
      simp only [lastWritten, hlw]
      by_cases hc : (c.name == k) = true
      · have hck : c.name = k := by simpa using hc
        rw [if_pos hc, hck, mapAssign_lookup_self]
      · have hck : (k == c.name) = false := by
          simp only [Bool.not_eq_true, beq_eq_false_iff_ne] at hc ⊢
          exact fun he => hc he.symm
        rw [if_neg hc, mapAssign_lookup_other m c.name k c.ready hck]

/-- C6: Ready over a snapshot of the registered checks is the conjunction of
all their readiness values, and the number of checks it evaluates stops at the
first not-ready one in registration order; Explain evaluates every check and
returns a map with pairwise-distinct keys, one key per distinct registered
name, each key bound to the readiness of the last registered check bearing
that name (a duplicate name retains only the last value written). -/
theorem readyCheck_ready_explain_characterization (cs : List CheckVal) (k : String) :
    (readyCheckReady cs = cs.all CheckVal.ready) ∧
    (readyCheckReadyCalls cs = min cs.length ((cs.takeWhile CheckVal.ready).length + 1)) ∧
    ((readyCheckExplain cs).map Prod.fst).Nodup ∧
    (∀ n, n ∈ (readyCheckExplain cs).map Prod.fst ↔ n ∈ cs.map CheckVal.name) ∧
    ((readyCheckExplain cs).lookup k = lastWritten cs k) := by
  refine ⟨?_, ?_, ?_, ?_, ?_⟩
  · induction cs with
    | nil => rfl
    | cons c rest ih =>
      by_cases hc : c.ready = true <;> simp [readyCheckReady, hc, ih]
  · induction cs with
    | nil => rfl
    | cons c rest ih =>
      by_cases hc : c.ready = true
      · simp only [readyCheckReadyCalls, List.takeWhile_cons, hc, if_true, ih,
          List.length_cons]
        omega
      · simp only [Bool.not_eq_true] at hc
        simp [readyCheckReadyCalls, List.takeWhile_cons, hc]
  · exact explain_fold_keys_nodup cs [] (by simp)
  · intro n
    simpa using explain_fold_keys_mem cs [] n
  · rw [readyCheckExplain, explain_fold_lookup]
    cases lastWritten cs k <;> rfl

/-- C9: in any well-formed timing trace of a running poll loop with one Stop
request, the loop observes the inactive flag only at its iteration-boundary
loads and exits at its first load at or past the stop instant, which lies at
most one full iteration interval past the stop request; at most one probe
invocation occurs at or after the stop request among the iterations that run;
and Stop, a plain store of false into the flag, is idempotent. -/
theorem pollCheck_stop_bounded (tr : PollTrace) (gap : Nat) (hwf : tr.wf)
    (hgap : ∀ i, tr.loadAt (i + 1) ≤ tr.loadAt i + gap) :
    (∃ e, tr.activeRead (tr.loadAt e) = false ∧
      (∀ j, j < e → tr.activeRead (tr.loadAt j) = true) ∧
      tr.loadAt e ≤ tr.stopAt + gap) ∧
    (∀ i j, tr.iterationRuns i → tr.iterationRuns j →
      tr.stopAt ≤ tr.probeAt i → tr.stopAt ≤ tr.probeAt j → i = j) ∧
    (∀ b, pollStop (pollStop b) = pollStop b) := by
  obtain ⟨h0, hlp, hpl⟩ := hwf
  have hmono : StrictMono tr.loadAt :=
    strictMono_nat_of_lt_succ (fun i => lt_trans (hlp i) (hpl i))
  have hge : ∀ i, i ≤ tr.loadAt i := by
    intro i
    induction i with
    | zero => exact Nat.zero_le _
    | succ n ihn => exact Nat.succ_le_of_lt (lt_of_le_of_lt ihn (hmono (Nat.lt_succ_self n)))
  have hex : ∃ i, tr.stopAt ≤ tr.loadAt i := ⟨tr.stopAt, hge _⟩
  have hlt : ∀ x, tr.iterationRuns x → tr.loadAt x < tr.stopAt := by
    intro x hx
    have hxx := hx x le_rfl
    simpa [PollTrace.activeRead] using hxx
  refine ⟨⟨Nat.find hex, ?_, ?_, ?_⟩, ?_, fun b => rfl⟩
  · simp only [PollTrace.activeRead, decide_eq_false_iff_not, not_lt]
    exact Nat.find_spec hex
  · intro j hj
    have hmin := Nat.find_min hex hj
    simp only [PollTrace.activeRead, decide_eq_true_eq]
    omega
  · by_cases he : Nat.find hex = 0
    · rw [he, h0]
      exact Nat.zero_le _
    · obtain ⟨n, hn⟩ := Nat.exists_eq_succ_of_ne_zero he
      have h1 : ¬ tr.stopAt ≤ tr.loadAt n := Nat.find_min hex (by omega)
      have h2 : tr.loadAt (n + 1) ≤ tr.loadAt n + gap := hgap n
      have h3 : tr.loadAt (Nat.find hex) = tr.loadAt (n + 1) := by rw [hn]
      rw [h3]
      omega
  · intro i j hri hrj hpi hpj
    rcases lt_trichotomy i j with h | h | h
    · exfalso
      have hj2 : tr.probeAt i < tr.loadAt (i + 1) := hpl i
      have hj3 : tr.loadAt (i + 1) ≤ tr.loadAt j := hmono.monotone (by omega)
      have hj4 := hlt j hrj
      omega
    · exact h
    · exfalso
      have hj2 : tr.probeAt j < tr.loadAt (j + 1) := hpl j
      have hj3 : tr.loadAt (j + 1) ≤ tr.loadAt i := hmono.monotone (by omega)
      have hj4 := hlt i hri
      omega

/-- C9 witness: the trace whose iteration i loads the flag at instant 3i and
probes at instant 3i+1, stopped at instant 4 with interval bound 3. -/
theorem pollCheck_stop_bounded_witness :
    (PollTrace.wf ⟨fun i => 3 * i, fun i => 3 * i + 1, 4⟩) ∧
    (∀ i, (⟨fun i => 3 * i, fun i => 3 * i + 1, 4⟩ : PollTrace).loadAt (i + 1) ≤
      (⟨fun i => 3 * i, fun i => 3 * i + 1, 4⟩ : PollTrace).loadAt i + 3) ∧
    ((∃ e, (⟨fun i => 3 * i, fun i => 3 * i + 1, 4⟩ : PollTrace).activeRead
        ((⟨fun i => 3 * i, fun i => 3 * i + 1, 4⟩ : PollTrace).loadAt e) = false ∧
      (∀ j, j < e → (⟨fun i => 3 * i, fun i => 3 * i + 1, 4⟩ : PollTrace).activeRead
        ((⟨fun i => 3 * i, fun i => 3 * i + 1, 4⟩ : PollTrace).loadAt j) = true) ∧
      (⟨fun i => 3 * i, fun i => 3 * i + 1, 4⟩ : PollTrace).loadAt e ≤
        (⟨fun i => 3 * i, fun i => 3 * i + 1, 4⟩ : PollTrace).stopAt + 3) ∧
    (∀ i j, (⟨fun i => 3 * i, fun i => 3 * i + 1, 4⟩ : PollTrace).iterationRuns i →
      (⟨fun i => 3 * i, fun i => 3 * i + 1, 4⟩ : PollTrace).iterationRuns j →
      (⟨fun i => 3 * i, fun i => 3 * i + 1, 4⟩ : PollTrace).stopAt ≤
        (⟨fun i => 3 * i, fun i => 3 * i + 1, 4⟩ : PollTrace).probeAt i →
      (⟨fun i => 3 * i, fun i => 3 * i + 1, 4⟩ : PollTrace).stopAt ≤
        (⟨fun i => 3 * i, fun i => 3 * i + 1, 4⟩ : PollTrace).probeAt j → i = j) ∧
    (∀ b, pollStop (pollStop b) = pollStop b)) := by
  have hwf : PollTrace.wf ⟨fun i => 3 * i, fun i => 3 * i + 1, 4⟩ :=
    ⟨rfl, fun i => by show 3 * i < 3 * i + 1; omega, fun i => by show 3 * i + 1 < 3 * (i + 1); omega⟩
  have hgap : ∀ i, (⟨fun i => 3 * i, fun i => 3 * i + 1, 4⟩ : PollTrace).loadAt (i + 1) ≤
      (⟨fun i => 3 * i, fun i => 3 * i + 1, 4⟩ : PollTrace).loadAt i + 3 :=
    fun i => by show 3 * (i + 1) ≤ 3 * i + 3; omega
  exact ⟨hwf, hgap, pollCheck_stop_bounded _ 3 hwf hgap⟩

/-- The recorded errors of one poll pass are the components whose sender is
ready by iteration t and delivers a non-nil error. -/
theorem pollOnce_fst (t : Nat) (l : List (String × CompBehavior)) :
    (pollOnce t l).1 = l.filterMap (fun p =>
      match p.2 with
      | some (k, some ge) => if k ≤ t then some (p.1, ge) else none
      | _ => none) := by
  induction l with
  | nil => rfl
  | cons hd tl ih =>
    obtain ⟨n2, b⟩ := hd
    rcases b with _ | ⟨k2, _ | ge2⟩ <;>
      simp only [pollOnce, List.filterMap_cons, ih] <;> split_ifs <;> rfl

/-- The components kept by one poll pass are those not yet readable. -/
theorem pollOnce_snd (t : Nat) (l : List (String × CompBehavior)) :
    (pollOnce t l).2 = l.filter (fun p => !recvReadyAt t p.2) := by
  induction l with
  | nil => rfl
  | cons hd tl ih =>
    obtain ⟨n2, b⟩ := hd
    rcases b with _ | ⟨k2, _ | ge2⟩ <;>
      simp only [pollOnce, List.filter_cons, recvReadyAt, ih] <;> split_ifs <;>
        simp_all [recvReadyAt]



/-- Membership in the errors recorded by one poll pass. -/
theorem pollOnce_errs_mem (t : Nat) (l : List (String × CompBehavior)) (n : String)
    (ge : GoErr) :
    (n, ge) ∈ (pollOnce t l).1 ↔ ∃ k, (n, some (k, some ge)) ∈ l ∧ k ≤ t := by
  rw [pollOnce_fst, List.mem_filterMap]
  constructor
  · rintro ⟨⟨n2, b⟩, hmem, hf⟩
    rcases b with _ | ⟨k2, _ | ge2⟩
    · simp at hf
    · simp at hf
    · by_cases hk : k2 ≤ t
      · simp only [if_pos hk, Option.some.injEq, Prod.mk.injEq] at hf
        obtain ⟨h1, h2⟩ := hf
        subst h1
        subst h2
        exact ⟨k2, hmem, hk⟩
      · simp [if_neg hk] at hf
  · rintro ⟨k, hmem, hk⟩
    refine ⟨(n, some (k, some ge)), hmem, ?_⟩
    simp [hk]

/-- Membership among the components one poll pass keeps. -/
theorem pollOnce_rem_mem (t : Nat) (l : List (String × CompBehavior)) (n : String)
    (b : CompBehavior) :
    (n, b) ∈ (pollOnce t l).2 ↔ (n, b) ∈ l ∧ recvReadyAt t b = false := by
  rw [pollOnce_snd, List.mem_filter]
  simp

/-- No error is recorded by a pass exactly when no readable component
delivers a non-nil error. -/
theorem pollOnce_errs_eq_nil (t : Nat) (l : List (String × CompBehavior)) :
    (pollOnce t l).1 = [] ↔
      ∀ n ge k, (n, some (k, some ge)) ∈ l → ¬k ≤ t := by
  rw [List.eq_nil_iff_forall_not_mem]
  constructor
  · intro h n ge k hmem hk
    exact h (n, ge) ((pollOnce_errs_mem t l n ge).mpr ⟨k, hmem, hk⟩)
  · rintro h ⟨n, ge⟩ hmem
    obtain ⟨k, hmem2, hk⟩ := (pollOnce_errs_mem t l n ge).mp hmem
    exact h n ge k hmem2 hk

/-- The pass keeps no component exactly when every component is readable. -/
theorem pollOnce_rem_eq_nil (t : Nat) (l : List (String × CompBehavior)) :
    (pollOnce t l).2 = [] ↔ ∀ p ∈ l, recvReadyAt t p.2 = true := by
  rw [List.eq_nil_iff_forall_not_mem]
  constructor
  · intro h p hp
    by_contra hb
    have hb2 : recvReadyAt t p.2 = false := by
      cases hx : recvReadyAt t p.2
      · rfl
      · exact absurd hx hb
    exact h p ((pollOnce_rem_mem t l p.1 p.2).mpr ⟨hp, hb2⟩)
  · rintro h ⟨n, b⟩ hmem
    obtain ⟨hmem2, hb⟩ := (pollOnce_rem_mem t l n b).mp hmem
    rw [h (n, b) hmem2] at hb
    simp at hb

/-- Every component kept by the pass at iteration t becomes readable at
iteration t + 1 at the earliest. -/
theorem remInv_step (t : Nat) (l : List (String × CompBehavior)) :
    remInv (t + 1) (pollOnce t l).2 := by
  rintro ⟨n, b⟩ hmem k e hb
  obtain ⟨hmem2, hrdy⟩ := (pollOnce_rem_mem t l n b).mp hmem
  subst hb
  simp only [recvReadyAt, decide_eq_false_iff_not, not_le] at hrdy
  omega

/-- Success characterization of the collection loop: starting at iteration t
with fuel iterations left before the deadline, under the readability
invariant and outside the degenerate empty-with-expired-deadline state, the
loop returns nil exactly when no error was recorded so far and every
remaining component delivers a nil error before the deadline. -/
theorem wfcAux_eq_none_iff : ∀ (fuel t : Nat) (l : List (String × CompBehavior))
    (errs : List (String × GoErr)), remInv t l → (l ≠ [] ∨ 0 < fuel) →
    (wfcAux t fuel l errs = none ↔
      errs = [] ∧ ∀ p ∈ l, succeedsBefore (t + fuel) p.2) := by
  intro fuel
  induction fuel with
  | zero =>
    intro t l errs hinv hne
    rcases hne with hne | hne
    · constructor
      · intro h
        simp [wfcAux] at h
      · rintro ⟨-, hall⟩
        exfalso
        rcases l with _ | ⟨⟨n, b⟩, tl⟩
        · exact hne rfl
        · obtain ⟨k, hb, hk⟩ := hall (n, b) (List.mem_cons_self _ _)
          have := hinv (n, b) (List.mem_cons_self _ _) k none hb
          omega
    · omega
  | succ fuel ih =>
    intro t l errs hinv hne
    rcases hpoll : pollOnce t l with ⟨newErrs, rem⟩
    have hfst : (pollOnce t l).1 = newErrs := by rw [hpoll]
    have hsnd : (pollOnce t l).2 = rem := by rw [hpoll]
    simp only [wfcAux, hpoll]
    by_cases hrem : rem.isEmpty
    · rw [if_pos hrem]
      have hremnil : rem = [] := List.isEmpty_iff.mp hrem
      subst hremnil
      have hall : ∀ p ∈ l, recvReadyAt t p.2 = true := by
        rw [← pollOnce_rem_eq_nil t l, hsnd]
      constructor
      · intro h
        have he2 : (errs ++ newErrs).isEmpty = true := by
          by_contra hc
          rw [if_neg hc] at h
          exact Option.some_ne_none _ h
        simp only [List.isEmpty_iff, List.append_eq_nil] at he2
        obtain ⟨he, hn⟩ := he2
        refine ⟨he, ?_⟩
        rintro ⟨n, b⟩ hmem
        have hrdy := hall (n, b) hmem
        rcases b with _ | ⟨k, _ | ge⟩
        · simp [recvReadyAt] at hrdy
        · simp only [recvReadyAt, decide_eq_true_eq] at hrdy
          exact ⟨k, rfl, by omega⟩
        · exfalso
          simp only [recvReadyAt, decide_eq_true_eq] at hrdy
          have : (n, ge) ∈ newErrs := by
            rw [← hfst]
            exact (pollOnce_errs_mem t l n ge).mpr ⟨k, hmem, hrdy⟩
          rw [hn] at this
          simp at this
      · rintro ⟨he, hall2⟩
        subst he
        have hn : newErrs = [] := by
          rw [← hfst, pollOnce_errs_eq_nil]
          intro n ge k hmem hk
          obtain ⟨k2, hb, hk2⟩ := hall2 (n, some (k, some ge)) hmem
          simp at hb
        rw [hn]
        rfl
    · rw [if_neg hrem]
      have hrne : rem ≠ [] := by
        intro hc
        rw [hc] at hrem
        exact hrem rfl
      have hinv2 : remInv (t + 1) rem := by
        rw [← hsnd]
        exact remInv_step t l
      rw [ih (t + 1) rem (errs ++ newErrs) hinv2 (Or.inl hrne)]
      have harith : t + 1 + fuel = t + (fuel + 1) := by omega
      rw [harith]
      constructor
      · rintro ⟨he2, hallrem⟩
        simp only [List.append_eq_nil] at he2
        obtain ⟨he, hn⟩ := he2
        refine ⟨he, ?_⟩
        rintro ⟨n, b⟩ hmem
        cases hrdy : recvReadyAt t b
        · have : (n, b) ∈ rem := by
            rw [← hsnd]
            exact (pollOnce_rem_mem t l n b).mpr ⟨hmem, hrdy⟩
          exact hallrem (n, b) this
        · rcases b with _ | ⟨k, _ | ge⟩
          · simp [recvReadyAt] at hrdy
          · simp only [recvReadyAt, decide_eq_true_eq] at hrdy
            exact ⟨k, rfl, by omega⟩
          · exfalso
            simp only [recvReadyAt, decide_eq_true_eq] at hrdy
            have : (n, ge) ∈ newErrs := by
              rw [← hfst]
              exact (pollOnce_errs_mem t l n ge).mpr ⟨k, hmem, hrdy⟩
            rw [hn] at this
            simp at this
      · rintro ⟨he, hall2⟩
        subst he
        have hn : newErrs = [] := by
          rw [← hfst, pollOnce_errs_eq_nil]
          intro n ge k hmem hk
          obtain ⟨k2, hb, hk2⟩ := hall2 (n, some (k, some ge)) hmem
          simp at hb
        subst hn
        refine ⟨rfl, ?_⟩
        rintro ⟨n, b⟩ hmem
        have hsub : (n, b) ∈ l := by
          have := (pollOnce_rem_mem t l n b).mp (hsnd ▸ hmem)
          exact this.1
        exact hall2 (n, b) hsub

/-- Aggregate-content characterization of the collection loop: when the loop
returns a ShutdownError, a pair (n, ge) lies in its ComponentErrors exactly
when it was already recorded, or some remaining component named n ends with
cause ge: its own error when delivered before the deadline, the timeout cause
when still outstanding at the deadline. -/
theorem wfcAux_some_mem : ∀ (fuel t : Nat) (l : List (String × CompBehavior))
    (errs m : List (String × GoErr)), remInv t l →
    wfcAux t fuel l errs = some m →
    ∀ (n : String) (ge : GoErr),
      ((n, ge) ∈ m ↔
        (n, ge) ∈ errs ∨ ∃ b, (n, b) ∈ l ∧ finalErr (t + fuel) b = some ge) := by
  intro fuel
  induction fuel with
  | zero =>
    intro t l errs m hinv hres n ge
    simp only [wfcAux, Option.some.injEq] at hres
    subst hres
    rw [List.mem_append]
    constructor
    · rintro (he | ht)
      · exact Or.inl he
      · right
        simp only [List.mem_map] at ht
        obtain ⟨⟨n2, b⟩, hmem, heq⟩ := ht
        simp only [Prod.mk.injEq] at heq
        obtain ⟨h1, h2⟩ := heq
        subst h1
        subst h2
        refine ⟨b, hmem, ?_⟩
        rcases b with _ | ⟨k, e⟩
        · rfl
        · have := hinv _ hmem k e rfl
          simp only [finalErr, Nat.add_zero]
          rw [if_neg (by omega)]
    · rintro (he | ⟨b, hmem, hfe⟩)
      · exact Or.inl he
      · right
        simp only [List.mem_map]
        have hto : ge = GoErr.shutdownTimeout := by
          rcases b with _ | ⟨k, e⟩
          · simp only [finalErr, Option.some.injEq] at hfe
            exact hfe.symm
          · have := hinv (n, some (k, e)) hmem k e rfl
            simp only [finalErr, Nat.add_zero] at hfe
            rw [if_neg (by omega)] at hfe
            simp only [Option.some.injEq] at hfe
            exact hfe.symm
        subst hto
        exact ⟨(n, b), hmem, rfl⟩
  | succ fuel ih =>
    intro t l errs m hinv hres n ge
    rcases hpoll : pollOnce t l with ⟨newErrs, rem⟩
    have hfst : (pollOnce t l).1 = newErrs := by rw [hpoll]
    have hsnd : (pollOnce t l).2 = rem := by rw [hpoll]
    simp only [wfcAux, hpoll] at hres
    have harith : t + 1 + fuel = t + (fuel + 1) := by omega
    by_cases hrem : rem.isEmpty
    · rw [if_pos hrem] at hres
      have hremnil : rem = [] := List.isEmpty_iff.mp hrem
      subst hremnil
      have hall : ∀ p ∈ l, recvReadyAt t p.2 = true := by
        rw [← pollOnce_rem_eq_nil t l, hsnd]
      have hm : m = errs ++ newErrs := by
        by_cases hc : (errs ++ newErrs).isEmpty
        · rw [if_pos hc] at hres
          exact absurd hres (by simp)
        · rw [if_neg hc] at hres
          exact (Option.some.inj hres).symm
      subst hm
      rw [List.mem_append]
      constructor
      · rintro (he | hn)
        · exact Or.inl he
        · right
          obtain ⟨k, hmem, hk⟩ := (pollOnce_errs_mem t l n ge).mp (hfst ▸ hn)
          refine ⟨some (k, some ge), hmem, ?_⟩
          simp only [finalErr]
          rw [if_pos (by omega)]
      · rintro (he | ⟨b, hmem, hfe⟩)
        · exact Or.inl he
        · right
          have hrdy := hall (n, b) hmem
          rcases b with _ | ⟨k, _ | ge2⟩
          · simp [recvReadyAt] at hrdy
          · simp only [finalErr] at hfe
            simp only [recvReadyAt, decide_eq_true_eq] at hrdy
            rw [if_pos (by omega)] at hfe
            simp at hfe
          · simp only [recvReadyAt, decide_eq_true_eq] at hrdy
            simp only [finalErr] at hfe
            rw [if_pos (by omega)] at hfe
            simp only [Option.some.injEq] at hfe
            subst hfe
            rw [← hfst]
            exact (pollOnce_errs_mem t l _ _).mpr ⟨k, hmem, hrdy⟩
    · rw [if_neg hrem] at hres
      have hinv2 : remInv (t + 1) rem := by
        rw [← hsnd]
        exact remInv_step t l
      have hmm := ih (t + 1) rem (errs ++ newErrs) m hinv2 hres n ge
      rw [harith] at hmm
      rw [hmm, List.mem_append]
      constructor
      · rintro ((he | hn) | ⟨b, hmem, hfe⟩)
        · exact Or.inl he
        · right
          obtain ⟨k, hmem, hk⟩ := (pollOnce_errs_mem t l n ge).mp (hfst ▸ hn)
          refine ⟨some (k, some ge), hmem, ?_⟩
          simp only [finalErr]
          rw [if_pos (by omega)]
        · right
          have hsub := (pollOnce_rem_mem t l n b).mp (hsnd ▸ hmem)
          exact ⟨b, hsub.1, hfe⟩
      · rintro (he | ⟨b, hmem, hfe⟩)
        · exact Or.inl (Or.inl he)
        · cases hrdy : recvReadyAt t b
          · right
            refine ⟨b, ?_, hfe⟩
            rw [← hsnd]
            exact (pollOnce_rem_mem t l n b).mpr ⟨hmem, hrdy⟩
          · left
            right
            rcases b with _ | ⟨k, _ | ge2⟩
            · simp [recvReadyAt] at hrdy
            · exfalso
              simp only [recvReadyAt, decide_eq_true_eq] at hrdy
              simp only [finalErr] at hfe
              rw [if_pos (by omega)] at hfe
              simp at hfe
            · simp only [recvReadyAt, decide_eq_true_eq] at hrdy
              simp only [finalErr] at hfe
              rw [if_pos (by omega)] at hfe
              simp only [Option.some.injEq] at hfe
              subst hfe
              rw [← hfst]
              exact (pollOnce_errs_mem t l _ _).mpr ⟨k, hmem, hrdy⟩

/-- In an association list with pairwise-distinct keys, a key determines its
value. -/
theorem mem_value_unique {β : Type} (l : List (String × β)) (h : (l.map Prod.fst).Nodup)
    (n : String) (b b2 : β) (h1 : (n, b) ∈ l) (h2 : (n, b2) ∈ l) : b = b2 := by
  induction l with
  | nil => simp at h1
  | cons hd tl ih =>
    simp only [List.map_cons, List.nodup_cons] at h
    rcases List.mem_cons.mp h1 with he1 | ht1
    · rcases List.mem_cons.mp h2 with he2 | ht2
      · rw [← he1] at he2
        exact (Prod.mk.injEq .. ▸ he2).2.symm
      · exfalso
        refine h.1 ?_
        rw [← he1]
        simp only [List.mem_map]
        exact ⟨(n, b2), ht2, rfl⟩
    · rcases List.mem_cons.mp h2 with he2 | ht2
      · exfalso
        refine h.1 ?_
        rw [← he2]
        simp only [List.mem_map]
        exact ⟨(n, b), ht1, rfl⟩
      · exact ih h.2 ht1 ht2

/-- C1 (amended): outside the degenerate run with no registered component and
an already-elapsed deadline, a completed run of the collection loop behind
Shutdown returns nil exactly when every registered component delivers a nil
error before the deadline; when it returns a ShutdownError, the aggregate
contains a cause for a name exactly when a component registered under that
name delivered that non-nil error before the deadline or is mapped to the
timeout cause because it was still outstanding at the deadline, and a
component that delivered a nil error before the deadline is absent from the
aggregate. -/
theorem shutdown_aggregate_characterization (deadline : Nat)
    (comps : List (String × CompBehavior))
    (hne : comps ≠ [] ∨ 0 < deadline)
    (hnodup : (comps.map Prod.fst).Nodup) :
    (waitForComponents deadline comps = none ↔
      ∀ p ∈ comps, succeedsBefore deadline p.2) ∧
    (∀ m, waitForComponents deadline comps = some m →
      ∀ (n : String) (ge : GoErr),
        ((n, ge) ∈ m ↔ ∃ b, (n, b) ∈ comps ∧ finalErr deadline b = some ge)) ∧
    (∀ m, waitForComponents deadline comps = some m →
      ∀ (n : String) (b : CompBehavior), (n, b) ∈ comps → succeedsBefore deadline b →
        ∀ ge, (n, ge) ∉ m) := by
  have hinv0 : remInv 0 comps := fun p _ k e _ => Nat.zero_le k
  refine ⟨?_, ?_, ?_⟩
  · rw [waitForComponents, wfcAux_eq_none_iff deadline 0 comps [] hinv0 hne]
    simp
  · intro m hm n ge
    rw [waitForComponents] at hm
    have hiff := wfcAux_some_mem deadline 0 comps [] m hinv0 hm n ge
    simpa using hiff
  · intro m hm n b hmem hsb ge hcontra
    rw [waitForComponents] at hm
    have hiff := wfcAux_some_mem deadline 0 comps [] m hinv0 hm n ge
    rcases hiff.mp hcontra with he | ⟨b2, hmem2, hfe⟩
    · simp at he
    · have hb : b2 = b := mem_value_unique comps hnodup n b2 b hmem2 hmem
      subst hb
      obtain ⟨k, hb, hk⟩ := hsb
      subst hb
      simp only [finalErr, Nat.zero_add] at hfe
      rw [if_pos hk] at hfe
      simp at hfe

/-- C1 witness: three components, a succeeding at iteration 0, b failing with
an error at iteration 1, c hung, deadline at iteration 3. -/
theorem shutdown_aggregate_characterization_witness :
    (([("a", some (0, none)), ("b", some (1, some (GoErr.errMsg "x"))),
        ("c", (none : CompBehavior))].map Prod.fst).Nodup) ∧
    (0 < 3) ∧
    ((waitForComponents 3 [("a", some (0, none)), ("b", some (1, some (GoErr.errMsg "x"))),
        ("c", (none : CompBehavior))] = none ↔
      ∀ p ∈ [("a", some (0, none)), ("b", some (1, some (GoErr.errMsg "x"))),
        ("c", (none : CompBehavior))], succeedsBefore 3 p.2) ∧
    (∀ m, waitForComponents 3 [("a", some (0, none)), ("b", some (1, some (GoErr.errMsg "x"))),
        ("c", (none : CompBehavior))] = some m →
      ∀ (n : String) (ge : GoErr),
        ((n, ge) ∈ m ↔ ∃ b, (n, b) ∈ [("a", some (0, none)),
          ("b", some (1, some (GoErr.errMsg "x"))), ("c", (none : CompBehavior))] ∧
          finalErr 3 b = some ge)) ∧
    (∀ m, waitForComponents 3 [("a", some (0, none)), ("b", some (1, some (GoErr.errMsg "x"))),
        ("c", (none : CompBehavior))] = some m →
      ∀ (n : String) (b : CompBehavior), (n, b) ∈ [("a", some (0, none)),
          ("b", some (1, some (GoErr.errMsg "x"))), ("c", (none : CompBehavior))] →
        succeedsBefore 3 b → ∀ ge, (n, ge) ∉ m)) :=
  ⟨by decide, by decide,
    shutdown_aggregate_characterization 3 _ (Or.inr (by decide)) (by decide)⟩

end GoLifecycle
